import Mathlib

/-!
# Verification of the Albatross validator core

A shallow embedding of the validator orchestrator and the Tendermint
aggregation contribution of the Albatross validator runtime, together with
theorems settling the specification's claims about them.

* `src/validator/src/aggregation/tendermint/contribution.rs` —
  `TendermintContribution`, `contributors`, `combine`.
* `src/validator/src/validator.rs` — the orchestrator state machine
  (`init_epoch`, `init_block_producer`, `pause`, `update_consensus_state`,
  the blockchain event handlers, the staking check, `poll_macro`'s `Update`
  arm, `poll_micro` and `publish_block`).
* `src/database/database-value/src/lib.rs` — `FromDatabaseValue` for
  integer types.
* `src/keys/src/es256_public_key.rs` — `ES256PublicKey` byte and hex
  round-trips.
-/

namespace Albatross

/-! ## Bitsets and multisignatures -/

/-- `nimiq_collections::bitset::BitSet`: a set of slot indices, modelled as a
`Finset ℕ`.  The source's `&` is intersection and `is_empty` is emptiness. -/
abbrev BitSet := Finset ℕ

/-- Modelled from the spec: `MultiSignature` (from `nimiq_block_albatross`,
whose source is not under `src/`) pairs an aggregate BLS signature with the
bitset of contributor slot indices.  The aggregate signature is modelled as
the multiset of the individual signatures it aggregates, so that aggregation
is the (commutative, associative) multiset sum. -/
structure MultiSignature where
  sig : Multiset ℕ
  signers : BitSet
deriving DecidableEq

/-- Modelled from the spec: combining two `MultiSignature`s aggregates the two
BLS signatures and unions the contributor sets; it fails when the two
contributor sets overlap (the failure the source's `expect` message calls
"overlapping MultiSignatures"). -/
def MultiSignature.combine (a b : MultiSignature) : Option MultiSignature :=
  if a.signers ∩ b.signers = ∅ then some ⟨a.sig + b.sig, a.signers ∪ b.signers⟩ else none

/-! ## The contributions map

`TendermintContribution.contributions` is a
`BTreeMap<Option<Blake2sHash>, MultiSignature>`.  Hashes are modelled as
naturals; the map is modelled as its underlying key-sorted association
list. -/

/-- Key of the contributions map: `Option<Blake2sHash>` (`none` is the nil
vote). -/
abbrev PropKey := Option ℕ

/-- The `BTreeMap` key order on `Option<Blake2sHash>`: `None` sorts before
`Some`, and hashes sort by value. -/
def keyLt : PropKey → PropKey → Bool
  | none, some _ => true
  | some a, some b => decide (a < b)
  | _, none => false

/-- `TendermintContribution`: every different proposal is represented as its
own multisignature. -/
structure TendermintContribution where
  contributions : List (PropKey × MultiSignature)
deriving DecidableEq

/-- The entry list of a `BTreeMap` is strictly sorted by key. -/
def SortedKeys (l : List (PropKey × MultiSignature)) : Prop :=
  l.Pairwise (fun e f => keyLt e.1 f.1 = true)

instance (l : List (PropKey × MultiSignature)) : Decidable (SortedKeys l) :=
  inferInstanceAs
    (Decidable (l.Pairwise (fun e f : PropKey × MultiSignature => keyLt e.1 f.1 = true)))

/-- `TendermintContribution::contributors`: folds `&` (BitSet intersection)
over the entries starting from the empty set, exactly as the source does. -/
def TendermintContribution.contributors (c : TendermintContribution) : BitSet :=
  c.contributions.foldl (fun aggregatedSet e => aggregatedSet ∩ e.2.signers) ∅

/-- The union of the contributor sets of all entries — what the spec's words
say `contributors()` returns ("the union of contributor sets across all
proposal-hash entries").  Stated separately so it can be compared with the
source's fold. -/
def TendermintContribution.contributorUnion (c : TendermintContribution) : BitSet :=
  c.contributions.foldl (fun acc e => acc ∪ e.2.signers) ∅

/-- One step of `combine`'s `for_each` over `other_contribution`:
`self.contributions.entry(hash).and_modify(|sig| sig.combine(other_sig)).or_insert(other_sig)`
on a sorted entry list.  `none` models the source's `expect` panic when the
two multisignatures at an existing key overlap. -/
def insertEntry (k : PropKey) (v : MultiSignature) :
    List (PropKey × MultiSignature) → Option (List (PropKey × MultiSignature))
  | [] => some [(k, v)]
  | (k1, v1) :: xs =>
    if keyLt k k1 then some ((k, v) :: (k1, v1) :: xs)
    else if keyLt k1 k then (insertEntry k v xs).map (fun m => (k1, v1) :: m)
    else (v1.combine v).map (fun w => (k1, w) :: xs)

/-- The map merge performed by `TendermintContribution::combine`: iterate over
all entries of `other_contribution`, combining into existing entries and
inserting missing ones.  `none` models the `expect` panic. -/
def mergeEntries (self other : List (PropKey × MultiSignature)) :
    Option (List (PropKey × MultiSignature)) :=
  other.foldl (fun acc e => acc.bind (insertEntry e.1 e.2)) (some self)

/-- `nimiq_handel::contribution::ContributionError` (the variant `combine`
uses). -/
inductive ContributionError
  | Overlapping (overlap : BitSet)
deriving DecidableEq

instance {ε α : Type} [DecidableEq ε] [DecidableEq α] : DecidableEq (Except ε α) :=
  fun a b =>
    match a, b with
    | .ok x, .ok y => decidable_of_iff (x = y) (by simp)
    | .error x, .error y => decidable_of_iff (x = y) (by simp)
    | .ok _, .error _ => isFalse (by simp)
    | .error _, .ok _ => isFalse (by simp)

/-- `TendermintContribution::combine`: compute the overlap of the two
`contributors()` sets; if it is empty merge the maps, otherwise return
`Err(Overlapping(overlap))`.  The outer `none` models a panic during the
merge. -/
def TendermintContribution.combine (self other : TendermintContribution) :
    Option (Except ContributionError TendermintContribution) :=
  let overlap := self.contributors ∩ other.contributors
  if overlap = ∅ then
    (mergeEntries self.contributions other.contributions).map (fun m => Except.ok ⟨m⟩)
  else some (Except.error (ContributionError.Overlapping overlap))

/-- `BTreeMap` lookup on the entry list (first entry with the given key). -/
def lookupEntry : List (PropKey × MultiSignature) → PropKey → Option MultiSignature
  | [], _ => none
  | (k, v) :: xs, q => if k = q then some v else lookupEntry xs q

/-! ## The `contributors` fold is constantly empty -/

theorem foldl_inter_empty (l : List (PropKey × MultiSignature)) :
    l.foldl (fun aggregatedSet e => aggregatedSet ∩ e.2.signers) (∅ : BitSet) = ∅ := by
  induction l with
  | nil => rfl
  | cons e t ih =>
    simp only [List.foldl_cons, Finset.empty_inter]
    exact ih

theorem contributors_eq_empty (c : TendermintContribution) : c.contributors = ∅ :=
  foldl_inter_empty c.contributions

/-- A two-entry contribution with contributor sets `{5}` and `{7}`. -/
def exampleTwoEntry : TendermintContribution :=
  ⟨[(none, ⟨{10}, {5}⟩), (some 3, ⟨{20}, {7}⟩)]⟩

/-- Claim C1: `contributors()` is specified to return the union of the
contributor bitsets of all entries, but the source folds with `&`
(intersection) starting from the empty set, so it returns `∅` even for a
contribution whose entries hold slots 5 and 7. -/
theorem contributors_intersection_fold_bug :
    exampleTwoEntry.contributors = ∅ ∧
    exampleTwoEntry.contributorUnion = {5, 7} ∧
    exampleTwoEntry.contributors ≠ exampleTwoEntry.contributorUnion := by decide

/-- Contribution `a`: slot 5 votes for the nil proposal. -/
def overlapA : TendermintContribution := ⟨[(none, ⟨{10}, {5}⟩)]⟩

/-- Contribution `b`: the same slot 5 votes for proposal hash 1. -/
def overlapB : TendermintContribution := ⟨[(some 1, ⟨{20}, {5}⟩)]⟩

/-- Claim C2: `combine` is specified to return `Err(Overlapping(m))` exactly
when the contributor sets intersect, but since the source's `contributors()`
always returns `∅` the overlap check trivially passes: combining two
contributions that share slot 5 returns `Ok` and merges them, double-counting
the signer. -/
theorem combine_accepts_overlapping_contributors :
    overlapA.contributorUnion ∩ overlapB.contributorUnion = {5} ∧
    overlapA.combine overlapB =
      some (Except.ok ⟨[(none, ⟨{10}, {5}⟩), (some 1, ⟨{20}, {5}⟩)]⟩) := by decide

/-! ## Key order and lookup facts -/

abbrev Entries := List (PropKey × MultiSignature)

theorem keyLt_irrefl (k : PropKey) : keyLt k k = false := by
  cases k <;> simp [keyLt]

theorem keyLt_trans {a b c : PropKey} (h1 : keyLt a b = true) (h2 : keyLt b c = true) :
    keyLt a c = true := by
  cases a <;> cases b <;> cases c <;> simp_all [keyLt] <;> omega

theorem keyLt_total_eq {a b : PropKey} (h1 : keyLt a b = false) (h2 : keyLt b a = false) :
    a = b := by
  cases a <;> cases b <;> simp_all [keyLt] <;> omega

theorem keyLt_ne {a b : PropKey} (h : keyLt a b = true) : a ≠ b := by
  intro he
  subst he
  rw [keyLt_irrefl] at h
  exact Bool.false_ne_true h

/-- Combination of optional map values: what the merged map holds at a key,
given what the two operand maps hold there. -/
def optCombine (x y : Option MultiSignature) : Option MultiSignature :=
  match x, y with
  | none, y => y
  | some u, none => some u
  | some u, some v => u.combine v

theorem optCombine_none_right (x : Option MultiSignature) : optCombine x none = x := by
  cases x <;> rfl

theorem optCombine_comm (x y : Option MultiSignature) : optCombine x y = optCombine y x := by
  cases x with
  | none => cases y <;> rfl
  | some u =>
    cases y with
    | none => rfl
    | some v =>
      simp only [optCombine, MultiSignature.combine, Finset.inter_comm v.signers u.signers]
      split_ifs with h
      · simp [add_comm, Finset.union_comm]
      · rfl

theorem lookupEntry_mem {l : Entries} {k : PropKey} {v : MultiSignature}
    (h : lookupEntry l k = some v) : (k, v) ∈ l := by
  induction l with
  | nil => simp [lookupEntry] at h
  | cons e t ih =>
    obtain ⟨k1, v1⟩ := e
    simp only [lookupEntry] at h
    split at h
    · next heq =>
      injection h with h
      subst heq h
      exact List.mem_cons_self _ _
    · exact List.mem_cons_of_mem _ (ih h)

theorem lookupEntry_eq_none {l : Entries} {k : PropKey}
    (h : ∀ e ∈ l, keyLt k e.1 = true) : lookupEntry l k = none := by
  induction l with
  | nil => rfl
  | cons e t ih =>
    obtain ⟨k1, v1⟩ := e
    have hk : keyLt k k1 = true := h (k1, v1) (List.mem_cons_self _ _)
    have hne : k1 ≠ k := fun he => keyLt_ne hk he.symm
    simp only [lookupEntry, if_neg hne]
    exact ih (fun e he => h e (List.mem_cons_of_mem _ he))

theorem lookupEntry_of_mem {l : Entries} {k : PropKey} {v : MultiSignature}
    (hs : SortedKeys l) (h : (k, v) ∈ l) : lookupEntry l k = some v := by
  induction l with
  | nil => simp at h
  | cons e t ih =>
    obtain ⟨k1, v1⟩ := e
    rw [SortedKeys, List.pairwise_cons] at hs
    obtain ⟨hh, ht⟩ := hs
    rcases List.mem_cons.mp h with he | hmem
    · rw [Prod.mk.injEq] at he
      obtain ⟨hk, hv⟩ := he
      subst hk hv
      simp [lookupEntry]
    · have hne : k1 ≠ k := by
        intro h'
        subst h'
        exact keyLt_ne (hh _ hmem) rfl
      simp only [lookupEntry, if_neg hne]
      exact ih ht hmem

theorem foldl_union_start_subset (l : Entries) (s : BitSet) :
    s ⊆ l.foldl (fun acc e => acc ∪ e.2.signers) s := by
  induction l generalizing s with
  | nil => simp
  | cons e t ih =>
    simp only [List.foldl_cons]
    exact Finset.Subset.trans Finset.subset_union_left (ih _)

theorem mem_signers_subset_foldl {l : Entries} {k : PropKey} {v : MultiSignature}
    (h : (k, v) ∈ l) (s : BitSet) :
    v.signers ⊆ l.foldl (fun acc e => acc ∪ e.2.signers) s := by
  induction l generalizing s with
  | nil => simp at h
  | cons e t ih =>
    simp only [List.foldl_cons]
    rcases List.mem_cons.mp h with he | hmem
    · subst he
      exact Finset.Subset.trans Finset.subset_union_right (foldl_union_start_subset t _)
    · exact ih hmem _

theorem mem_signers_subset_contributorUnion {c : TendermintContribution} {k : PropKey}
    {v : MultiSignature} (h : (k, v) ∈ c.contributions) :
    v.signers ⊆ c.contributorUnion :=
  mem_signers_subset_foldl h ∅

/-! ## Insertion lemmas -/

theorem lookupEntry_cons (k1 : PropKey) (v1 : MultiSignature) (t : Entries) (q : PropKey) :
    lookupEntry ((k1, v1) :: t) q = if k1 = q then some v1 else lookupEntry t q := rfl

theorem insertEntry_isSome {l : Entries} {k : PropKey} {v : MultiSignature}
    (h : ∀ v1, (k, v1) ∈ l → v1.signers ∩ v.signers = ∅) :
    ∃ m, insertEntry k v l = some m := by
  induction l with
  | nil => exact ⟨[(k, v)], rfl⟩
  | cons e t ih =>
    obtain ⟨k1, v1⟩ := e
    by_cases h1 : keyLt k k1 = true
    · exact ⟨(k, v) :: (k1, v1) :: t, by simp [insertEntry, h1]⟩
    · by_cases h2 : keyLt k1 k = true
      · obtain ⟨m, hm⟩ := ih (fun v2 hv2 => h v2 (List.mem_cons_of_mem _ hv2))
        refine ⟨(k1, v1) :: m, ?_⟩
        simp [insertEntry, h1, h2, hm]
      · have hk : k1 = k :=
          keyLt_total_eq (Bool.eq_false_iff.mpr h2) (Bool.eq_false_iff.mpr h1)
        have hd : v1.signers ∩ v.signers = ∅ := by
          refine h v1 ?_
          rw [hk]
          exact List.mem_cons_self _ _
        refine ⟨(k1, ⟨v1.sig + v.sig, v1.signers ∪ v.signers⟩) :: t, ?_⟩
        simp [insertEntry, h1, h2, MultiSignature.combine, hd]

theorem lookupEntry_insertEntry {l : Entries} {k : PropKey} {v : MultiSignature} :
    ∀ {m : Entries}, SortedKeys l → insertEntry k v l = some m → ∀ q,
      lookupEntry m q =
        if q = k then optCombine (lookupEntry l k) (some v) else lookupEntry l q := by
  induction l with
  | nil =>
    intro m _ hm q
    simp only [insertEntry, Option.some.injEq] at hm
    subst hm
    by_cases hq : q = k
    · rw [hq, if_pos rfl, lookupEntry_cons, if_pos rfl]
      rfl
    · rw [if_neg hq, lookupEntry_cons, if_neg (fun h => hq h.symm)]
  | cons e t ih =>
    intro m hs hm q
    obtain ⟨k1, v1⟩ := e
    rw [SortedKeys, List.pairwise_cons] at hs
    obtain ⟨hh, ht⟩ := hs
    by_cases h1 : keyLt k k1 = true
    · rw [insertEntry, if_pos h1, Option.some.injEq] at hm
      subst hm
      have hlk : lookupEntry ((k1, v1) :: t) k = none := by
        refine lookupEntry_eq_none ?_
        intro f hf
        rcases List.mem_cons.mp hf with hf1 | hf2
        · subst hf1; exact h1
        · exact keyLt_trans h1 (hh f hf2)
      by_cases hq : q = k
      · rw [hq, if_pos rfl, hlk, lookupEntry_cons, if_pos rfl]
        rfl
      · rw [if_neg hq, lookupEntry_cons, if_neg (fun h => hq h.symm)]
    · by_cases h2 : keyLt k1 k = true
      · rw [insertEntry, if_neg h1, if_pos h2] at hm
        cases hit : insertEntry k v t with
        | none =>
          rw [hit] at hm
          exact Option.noConfusion hm
        | some m1 =>
          rw [hit] at hm
          injection hm with hm
          subst hm
          have hne : k1 ≠ k := keyLt_ne h2
          have iht := ih ht hit
          by_cases hq : q = k
          · rw [hq, if_pos rfl, lookupEntry_cons, if_neg hne, iht k, if_pos rfl,
              lookupEntry_cons, if_neg hne]
          · rw [if_neg hq, lookupEntry_cons, lookupEntry_cons, iht q, if_neg hq]
      · have hk : k1 = k :=
          keyLt_total_eq (Bool.eq_false_iff.mpr h2) (Bool.eq_false_iff.mpr h1)
        subst hk
        rw [insertEntry, if_neg h1, if_neg h2] at hm
        cases hcomb : v1.combine v with
        | none =>
          rw [hcomb] at hm
          exact Option.noConfusion hm
        | some w =>
          rw [hcomb] at hm
          injection hm with hm
          subst hm
          by_cases hq : q = k1
          · rw [hq, if_pos rfl, lookupEntry_cons, if_pos rfl, lookupEntry_cons, if_pos rfl]
            show some w = optCombine (some v1) (some v)
            rw [optCombine, hcomb]
          · rw [if_neg hq, lookupEntry_cons, if_neg (fun h => hq h.symm),
              lookupEntry_cons, if_neg (fun h => hq h.symm)]

theorem insertEntry_mem_keys {l : Entries} {k : PropKey} {v : MultiSignature} :
    ∀ {m : Entries}, insertEntry k v l = some m → ∀ {q : PropKey} {w : MultiSignature},
      (q, w) ∈ m → q = k ∨ ∃ w1, (q, w1) ∈ l := by
  induction l with
  | nil =>
    intro m hm q w hq
    simp only [insertEntry, Option.some.injEq] at hm
    subst hm
    rcases List.mem_cons.mp hq with h | h
    · injection h with hq1 hv1
      left; exact hq1
    · simp at h
  | cons e t ih =>
    intro m hm q w hq
    obtain ⟨k1, v1⟩ := e
    by_cases h1 : keyLt k k1 = true
    · rw [insertEntry, if_pos h1, Option.some.injEq] at hm
      subst hm
      rcases List.mem_cons.mp hq with h | h
      · injection h with hq1 hv1
        left; exact hq1
      · right; exact ⟨w, h⟩
    · by_cases h2 : keyLt k1 k = true
      · rw [insertEntry, if_neg h1, if_pos h2] at hm
        cases hit : insertEntry k v t with
        | none =>
          rw [hit] at hm
          exact Option.noConfusion hm
        | some m1 =>
          rw [hit] at hm
          injection hm with hm
          subst hm
          rcases List.mem_cons.mp hq with h | h
          · injection h with hq1 hv1
            right
            rw [hq1]
            exact ⟨v1, List.mem_cons_self _ _⟩
          · rcases ih hit h with h' | ⟨w1, hw1⟩
            · left; exact h'
            · right; exact ⟨w1, List.mem_cons_of_mem _ hw1⟩
      · rw [insertEntry, if_neg h1, if_neg h2] at hm
        cases hcomb : v1.combine v with
        | none =>
          rw [hcomb] at hm
          exact Option.noConfusion hm
        | some w1 =>
          rw [hcomb] at hm
          injection hm with hm
          subst hm
          rcases List.mem_cons.mp hq with h | h
          · injection h with hq1 hv1
            right
            rw [hq1]
            exact ⟨v1, List.mem_cons_self _ _⟩
          · right; exact ⟨w, List.mem_cons_of_mem _ h⟩

theorem insertEntry_sorted {l : Entries} {k : PropKey} {v : MultiSignature} :
    ∀ {m : Entries}, SortedKeys l → insertEntry k v l = some m → SortedKeys m := by
  induction l with
  | nil =>
    intro m _ hm
    simp only [insertEntry, Option.some.injEq] at hm
    subst hm
    simp [SortedKeys]
  | cons e t ih =>
    intro m hs hm
    obtain ⟨k1, v1⟩ := e
    rw [SortedKeys, List.pairwise_cons] at hs
    obtain ⟨hh, ht⟩ := hs
    by_cases h1 : keyLt k k1 = true
    · rw [insertEntry, if_pos h1, Option.some.injEq] at hm
      subst hm
      rw [SortedKeys, List.pairwise_cons]
      refine ⟨?_, ?_⟩
      · intro f hf
        rcases List.mem_cons.mp hf with hf1 | hf2
        · subst hf1; exact h1
        · exact keyLt_trans h1 (hh f hf2)
      · rw [List.pairwise_cons]
        exact ⟨hh, ht⟩
    · by_cases h2 : keyLt k1 k = true
      · rw [insertEntry, if_neg h1, if_pos h2] at hm
        cases hit : insertEntry k v t with
        | none =>
          rw [hit] at hm
          exact Option.noConfusion hm
        | some m1 =>
          rw [hit] at hm
          injection hm with hm
          subst hm
          rw [SortedKeys, List.pairwise_cons]
          refine ⟨?_, ih ht hit⟩
          intro f hf
          obtain ⟨q, w⟩ := f
          rcases insertEntry_mem_keys hit hf with hq | ⟨w1, hw1⟩
          · subst hq; exact h2
          · exact hh (q, w1) hw1
      · have hk : k1 = k :=
          keyLt_total_eq (Bool.eq_false_iff.mpr h2) (Bool.eq_false_iff.mpr h1)
        subst hk
        rw [insertEntry, if_neg h1, if_neg h2] at hm
        cases hcomb : v1.combine v with
        | none =>
          rw [hcomb] at hm
          exact Option.noConfusion hm
        | some w =>
          rw [hcomb] at hm
          injection hm with hm
          subst hm
          rw [SortedKeys, List.pairwise_cons]
          exact ⟨fun f hf => hh f hf, ht⟩

/-! ## Merge lemmas -/

theorem inter_union_empty_right {A B C : BitSet} (h1 : A ∩ B = ∅) (h2 : A ∩ C = ∅) :
    A ∩ (B ∪ C) = ∅ := by
  rw [Finset.eq_empty_iff_forall_not_mem] at h1 h2 ⊢
  intro x hx
  rw [Finset.mem_inter, Finset.mem_union] at hx
  have h1x := h1 x
  have h2x := h2 x
  rw [Finset.mem_inter] at h1x h2x
  tauto

theorem inter_union_empty_left {A B C : BitSet} (h1 : A ∩ C = ∅) (h2 : B ∩ C = ∅) :
    (A ∪ B) ∩ C = ∅ := by
  rw [Finset.inter_comm]
  exact inter_union_empty_right (Finset.inter_comm A C ▸ h1) (Finset.inter_comm B C ▸ h2)

theorem signers_disjoint_of_subset {A B SA SB : BitSet} (hA : A ⊆ SA) (hB : B ⊆ SB)
    (h : SA ∩ SB = ∅) : A ∩ B = ∅ := by
  have hsub : A ∩ B ⊆ SA ∩ SB := Finset.inter_subset_inter hA hB
  rw [h] at hsub
  exact Finset.subset_empty.mp hsub

theorem optCombine_signers_subset {x y : Option MultiSignature} {w : MultiSignature}
    {sx sy : BitSet}
    (hx : ∀ u, x = some u → u.signers ⊆ sx) (hy : ∀ u, y = some u → u.signers ⊆ sy)
    (h : optCombine x y = some w) :
    w.signers ⊆ sx ∪ sy := by
  cases x with
  | none =>
    cases y with
    | none => exact Option.noConfusion h
    | some v =>
      injection h with h
      subst h
      exact Finset.Subset.trans (hy v rfl) Finset.subset_union_right
  | some u =>
    cases y with
    | none =>
      injection h with h
      subst h
      exact Finset.Subset.trans (hx u rfl) Finset.subset_union_left
    | some v =>
      simp only [optCombine, MultiSignature.combine] at h
      split_ifs at h with hd
      injection h with h
      subst h
      exact Finset.union_subset_union (hx u rfl) (hy v rfl)

theorem foldl_bind_none (bs : Entries) :
    bs.foldl (fun acc e => acc.bind (insertEntry e.1 e.2)) none = none := by
  induction bs with
  | nil => rfl
  | cons e t ih =>
    simp only [List.foldl_cons, Option.none_bind]
    exact ih

theorem mergeEntries_cons (self : Entries) (k : PropKey) (v : MultiSignature) (bs : Entries) :
    mergeEntries self ((k, v) :: bs) =
      match insertEntry k v self with
      | some a1 => mergeEntries a1 bs
      | none => none := by
  rw [mergeEntries, List.foldl_cons]
  cases hit : insertEntry k v self with
  | none =>
    simp only [Option.some_bind, hit]
    exact foldl_bind_none bs
  | some a1 =>
    simp only [Option.some_bind, hit]
    rfl

/-- Full specification of the source's `combine` merge on sorted entry lists
whose values are pairwise compatible at every shared key: the merge succeeds,
stays sorted, and acts pointwise as `optCombine`. -/
theorem mergeEntries_spec (other : Entries) :
    ∀ self : Entries, SortedKeys self → SortedKeys other →
      (∀ q va vb, lookupEntry self q = some va → lookupEntry other q = some vb →
        va.signers ∩ vb.signers = ∅) →
      ∃ m, mergeEntries self other = some m ∧ SortedKeys m ∧
        ∀ q, lookupEntry m q = optCombine (lookupEntry self q) (lookupEntry other q) := by
  induction other with
  | nil =>
    intro self hs _ _
    refine ⟨self, rfl, hs, fun q => ?_⟩
    show lookupEntry self q = optCombine (lookupEntry self q) none
    rw [optCombine_none_right]
  | cons e bs ih =>
    intro self hs hb hd
    obtain ⟨k, v⟩ := e
    rw [SortedKeys, List.pairwise_cons] at hb
    obtain ⟨hbh, hbt⟩ := hb
    have hlk_other : lookupEntry ((k, v) :: bs) k = some v := by
      rw [lookupEntry_cons, if_pos rfl]
    have hlk_bs : lookupEntry bs k = none :=
      lookupEntry_eq_none (fun f hf => hbh f hf)
    obtain ⟨a1, ha1⟩ : ∃ a1, insertEntry k v self = some a1 := by
      refine insertEntry_isSome ?_
      intro v1 h1
      exact hd k v1 v (lookupEntry_of_mem hs h1) hlk_other
    have ha1s : SortedKeys a1 := insertEntry_sorted hs ha1
    have hlook1 := lookupEntry_insertEntry hs ha1
    have hd1 : ∀ q va vb, lookupEntry a1 q = some va → lookupEntry bs q = some vb →
        va.signers ∩ vb.signers = ∅ := by
      intro q va vb hqa hqb
      by_cases hq : q = k
      · subst hq
        rw [hlk_bs] at hqb
        exact Option.noConfusion hqb
      · rw [hlook1 q, if_neg hq] at hqa
        refine hd q va vb hqa ?_
        rw [lookupEntry_cons, if_neg (fun h => hq h.symm)]
        exact hqb
    obtain ⟨m, hm, hms, hml⟩ := ih a1 ha1s hbt hd1
    refine ⟨m, ?_, hms, ?_⟩
    · rw [mergeEntries_cons, ha1]
      exact hm
    · intro q
      rw [hml q, hlook1 q]
      by_cases hq : q = k
      · subst hq
        rw [if_pos rfl, hlk_bs, hlk_other, optCombine_none_right]
      · rw [if_neg hq, lookupEntry_cons, if_neg (fun h => hq h.symm)]

theorem lookup_subset_contributorUnion (a : TendermintContribution) (q : PropKey) :
    ∀ u, lookupEntry a.contributions q = some u → u.signers ⊆ a.contributorUnion :=
  fun _ hu => mem_signers_subset_contributorUnion (lookupEntry_mem hu)

theorem lookup_disjoint_of_union_disjoint {a b : TendermintContribution}
    (h : a.contributorUnion ∩ b.contributorUnion = ∅) (q : PropKey)
    {va vb : MultiSignature}
    (ha : lookupEntry a.contributions q = some va)
    (hb : lookupEntry b.contributions q = some vb) :
    va.signers ∩ vb.signers = ∅ :=
  signers_disjoint_of_subset (lookup_subset_contributorUnion a q va ha)
    (lookup_subset_contributorUnion b q vb hb) h

theorem combine_eq_mergeEntries (a b : TendermintContribution) :
    a.combine b =
      (mergeEntries a.contributions b.contributions).map (fun m => Except.ok ⟨m⟩) := by
  simp [TendermintContribution.combine, contributors_eq_empty]

theorem optCombine_assoc_comm (x y z : Option MultiSignature)
    (hxy : ∀ u w, x = some u → y = some w → u.signers ∩ w.signers = ∅)
    (hyz : ∀ u w, y = some u → z = some w → u.signers ∩ w.signers = ∅)
    (hxz : ∀ u w, x = some u → z = some w → u.signers ∩ w.signers = ∅) :
    optCombine (optCombine x y) z = optCombine x (optCombine y z) ∧
    optCombine (optCombine x y) z = optCombine (optCombine z x) y := by
  cases x with
  | none =>
    refine ⟨rfl, ?_⟩
    show optCombine y z = optCombine (optCombine z none) y
    rw [optCombine_none_right]
    exact optCombine_comm y z
  | some u =>
    cases y with
    | none =>
      refine ⟨rfl, ?_⟩
      show optCombine (some u) z = optCombine (optCombine z (some u)) none
      rw [optCombine_none_right]
      exact optCombine_comm _ _
    | some w =>
      cases z with
      | none =>
        constructor
        · rw [optCombine_none_right, optCombine_none_right]
        · rw [optCombine_none_right]
          rfl
      | some t =>
        have d1 := hxy u w rfl rfl
        have d2 := hyz w t rfl rfl
        have d3 := hxz u t rfl rfl
        have hl : (u.signers ∪ w.signers) ∩ t.signers = ∅ := inter_union_empty_left d3 d2
        have hcw : u.combine w = some ⟨u.sig + w.sig, u.signers ∪ w.signers⟩ := by
          simp only [MultiSignature.combine]
          rw [if_pos d1]
        have hwt : w.combine t = some ⟨w.sig + t.sig, w.signers ∪ t.signers⟩ := by
          simp only [MultiSignature.combine]
          rw [if_pos d2]
        have d3c : t.signers ∩ u.signers = ∅ := by
          rw [Finset.inter_comm]
          exact d3
        have htu : t.combine u = some ⟨t.sig + u.sig, t.signers ∪ u.signers⟩ := by
          simp only [MultiSignature.combine]
          rw [if_pos d3c]
        constructor
        · show optCombine (u.combine w) (some t) = optCombine (some u) (w.combine t)
          rw [hcw, hwt]
          show MultiSignature.combine _ _ = MultiSignature.combine _ _
          simp only [MultiSignature.combine]
          rw [if_pos hl, if_pos (inter_union_empty_right d1 d3), Option.some.injEq,
            MultiSignature.mk.injEq]
          constructor
          · rw [add_assoc]
          · rw [Finset.union_assoc]
        · show optCombine (u.combine w) (some t) = optCombine (t.combine u) (some w)
          rw [hcw, htu]
          show MultiSignature.combine _ _ = MultiSignature.combine _ _
          simp only [MultiSignature.combine]
          have d2c : t.signers ∩ w.signers = ∅ := by
            rw [Finset.inter_comm]
            exact d2
          rw [if_pos hl, if_pos (inter_union_empty_left d2c d1), Option.some.injEq,
            MultiSignature.mk.injEq]
          constructor
          · rw [add_assoc, add_comm w.sig t.sig, ← add_assoc, add_comm u.sig t.sig]
          · rw [Finset.union_assoc, Finset.union_comm w.signers t.signers,
              ← Finset.union_assoc, Finset.union_comm u.signers t.signers]

/-- Claim C3: for pairwise non-overlapping contributions (no slot index shared
between the contributor sets of any two), `combine` is commutative and
associative: all bracketed combinations succeed and yield the same multiset of
signatures at every proposal-hash key. -/
theorem combine_comm_assoc_nonoverlapping (a b c : TendermintContribution)
    (ha : SortedKeys a.contributions) (hb : SortedKeys b.contributions)
    (hc : SortedKeys c.contributions)
    (hab : a.contributorUnion ∩ b.contributorUnion = ∅)
    (hbc : b.contributorUnion ∩ c.contributorUnion = ∅)
    (hac : a.contributorUnion ∩ c.contributorUnion = ∅) :
    ∃ ab bc ca abc1 abc2 abc3 : TendermintContribution,
      a.combine b = some (Except.ok ab) ∧
      b.combine c = some (Except.ok bc) ∧
      c.combine a = some (Except.ok ca) ∧
      ab.combine c = some (Except.ok abc1) ∧
      a.combine bc = some (Except.ok abc2) ∧
      ca.combine b = some (Except.ok abc3) ∧
      (∀ q, lookupEntry abc1.contributions q = lookupEntry abc2.contributions q) ∧
      (∀ q, lookupEntry abc1.contributions q = lookupEntry abc3.contributions q) := by
  have hca : c.contributorUnion ∩ a.contributorUnion = ∅ := by
    rw [Finset.inter_comm]; exact hac
  have hcb : c.contributorUnion ∩ b.contributorUnion = ∅ := by
    rw [Finset.inter_comm]; exact hbc
  obtain ⟨mab, hmab, hsab, hlab⟩ :=
    mergeEntries_spec b.contributions a.contributions ha hb
      (fun q va vb h1 h2 => lookup_disjoint_of_union_disjoint hab q h1 h2)
  obtain ⟨mbc, hmbc, hsbc, hlbc⟩ :=
    mergeEntries_spec c.contributions b.contributions hb hc
      (fun q va vb h1 h2 => lookup_disjoint_of_union_disjoint hbc q h1 h2)
  obtain ⟨mca, hmca, hsca, hlca⟩ :=
    mergeEntries_spec a.contributions c.contributions hc ha
      (fun q va vb h1 h2 => lookup_disjoint_of_union_disjoint hca q h1 h2)
  obtain ⟨m1, hm1, hs1, hl1⟩ :=
    mergeEntries_spec c.contributions mab hsab hc (by
      intro q va vb h1 h2
      have hva : va.signers ⊆ a.contributorUnion ∪ b.contributorUnion := by
        rw [hlab q] at h1
        exact optCombine_signers_subset (lookup_subset_contributorUnion a q)
          (lookup_subset_contributorUnion b q) h1
      exact signers_disjoint_of_subset hva (lookup_subset_contributorUnion c q vb h2)
        (inter_union_empty_left hac hbc))
  obtain ⟨m2, hm2, hs2, hl2⟩ :=
    mergeEntries_spec mbc a.contributions ha hsbc (by
      intro q va vb h1 h2
      have hvb : vb.signers ⊆ b.contributorUnion ∪ c.contributorUnion := by
        rw [hlbc q] at h2
        exact optCombine_signers_subset (lookup_subset_contributorUnion b q)
          (lookup_subset_contributorUnion c q) h2
      exact signers_disjoint_of_subset (lookup_subset_contributorUnion a q va h1) hvb
        (inter_union_empty_right hab hac))
  obtain ⟨m3, hm3, hs3, hl3⟩ :=
    mergeEntries_spec b.contributions mca hsca hb (by
      intro q va vb h1 h2
      have hva : va.signers ⊆ c.contributorUnion ∪ a.contributorUnion := by
        rw [hlca q] at h1
        exact optCombine_signers_subset (lookup_subset_contributorUnion c q)
          (lookup_subset_contributorUnion a q) h1
      exact signers_disjoint_of_subset hva (lookup_subset_contributorUnion b q vb h2)
        (inter_union_empty_left hcb hab))
  refine ⟨⟨mab⟩, ⟨mbc⟩, ⟨mca⟩, ⟨m1⟩, ⟨m2⟩, ⟨m3⟩, ?_, ?_, ?_, ?_, ?_, ?_, ?_, ?_⟩
  · rw [combine_eq_mergeEntries, hmab]
    rfl
  · rw [combine_eq_mergeEntries, hmbc]
    rfl
  · rw [combine_eq_mergeEntries, hmca]
    rfl
  · rw [combine_eq_mergeEntries]
    show (mergeEntries mab c.contributions).map _ = _
    rw [hm1]
    rfl
  · rw [combine_eq_mergeEntries]
    show (mergeEntries a.contributions mbc).map _ = _
    rw [hm2]
    rfl
  · rw [combine_eq_mergeEntries]
    show (mergeEntries mca b.contributions).map _ = _
    rw [hm3]
    rfl
  · intro q
    have key := optCombine_assoc_comm (lookupEntry a.contributions q)
      (lookupEntry b.contributions q) (lookupEntry c.contributions q)
      (fun u w h1 h2 => lookup_disjoint_of_union_disjoint hab q h1 h2)
      (fun u w h1 h2 => lookup_disjoint_of_union_disjoint hbc q h1 h2)
      (fun u w h1 h2 => lookup_disjoint_of_union_disjoint hac q h1 h2)
    show lookupEntry m1 q = lookupEntry m2 q
    rw [hl1 q, hlab q, hl2 q, hlbc q]
    exact key.1
  · intro q
    have key := optCombine_assoc_comm (lookupEntry a.contributions q)
      (lookupEntry b.contributions q) (lookupEntry c.contributions q)
      (fun u w h1 h2 => lookup_disjoint_of_union_disjoint hab q h1 h2)
      (fun u w h1 h2 => lookup_disjoint_of_union_disjoint hbc q h1 h2)
      (fun u w h1 h2 => lookup_disjoint_of_union_disjoint hac q h1 h2)
    show lookupEntry m1 q = lookupEntry m3 q
    rw [hl1 q, hlab q, hl3 q, hlca q]
    exact key.2

/-- Slot 1 votes nil. -/
def cThreeA : TendermintContribution := ⟨[(none, ⟨{1}, {1}⟩)]⟩

/-- Slot 2 votes for proposal hash 1. -/
def cThreeB : TendermintContribution := ⟨[(some 1, ⟨{2}, {2}⟩)]⟩

/-- Slot 3 votes for proposal hash 2. -/
def cThreeC : TendermintContribution := ⟨[(some 2, ⟨{3}, {3}⟩)]⟩

/-- Witness for claim C3 at three concrete non-overlapping contributions. -/
theorem combine_comm_assoc_nonoverlapping_witness :
    ∃ ab bc ca abc1 abc2 abc3 : TendermintContribution,
      cThreeA.combine cThreeB = some (Except.ok ab) ∧
      cThreeB.combine cThreeC = some (Except.ok bc) ∧
      cThreeC.combine cThreeA = some (Except.ok ca) ∧
      ab.combine cThreeC = some (Except.ok abc1) ∧
      cThreeA.combine bc = some (Except.ok abc2) ∧
      ca.combine cThreeB = some (Except.ok abc3) ∧
      (∀ q, lookupEntry abc1.contributions q = lookupEntry abc2.contributions q) ∧
      (∀ q, lookupEntry abc1.contributions q = lookupEntry abc3.contributions q) :=
  combine_comm_assoc_nonoverlapping cThreeA cThreeB cThreeC
    (by decide) (by decide) (by decide) (by decide) (by decide) (by decide)

/-! ## The validator orchestrator state machine

Shallow embedding of `src/validator/src/validator.rs`.  The blockchain, the
staking contract and the consensus module are external collaborators: their
observable state is a `ChainState` supplied at each poll step.  Hashes,
addresses and transaction hashes are modelled as naturals.  `Policy`
(`nimiq_primitives`, not under `src/`) is abstracted into `Params`:
`block_type_of`, `blocks_per_epoch` and `block_after_jail` are arbitrary
parameters. -/

/-- `BlockType`: the type of the block at a given height. -/
inductive BlockTy
  | macroBlock
  | microBlock
deriving DecidableEq

/-- Abstracted `Policy` constants and functions. -/
structure Params where
  blockTypeOf : ℕ → BlockTy
  blocksPerEpoch : ℕ
  blockAfterJail : ℕ → ℕ

/-- `ValidatorStakingState` (validator.rs lines 47-53). -/
inductive ValidatorStakingState
  | Active
  | Inactive (jailedFrom : Option ℕ)
  | NoStake
  | Unknown
deriving DecidableEq

/-- The state of the external collaborators as observed through their
interfaces during one poll pass: blockchain head, staking contract view,
consensus flags, and the `automatic_reactivate` atomic. -/
structure ChainState where
  headHash : ℕ
  headNumber : ℕ
  electedSlotBand : Option ℕ
  consensusEstablished : Bool
  canEnforceValidityWindow : Bool
  stakingState : ValidatorStakingState
  automaticReactivate : Bool
  txInValidityWindow : Bool
  freshTxHash : ℕ
deriving DecidableEq

/-- `InactivityState` (validator.rs lines 61-65). -/
structure InactivityState where
  inactive_tx_hash : ℕ
  inactive_tx_validity_window_start : ℕ
deriving DecidableEq

/-- The orchestrator-owned mutable state modelled by the machine: the
consensus-state mirror, the slot band, the two producers (presence only) and
the in-flight inactivity state. -/
structure VState where
  consensus_established : Bool
  validity_window_synced : Bool
  slot_band : Option ℕ
  macroProducer : Bool
  microProducer : Bool
  validator_state : Option InactivityState
deriving DecidableEq

/-- `Validator::is_synced` (consensus established and validity window
enforceable, read from the stored mirror). -/
def VState.is_synced (s : VState) : Bool :=
  s.consensus_established && s.validity_window_synced

/-- `Validator::is_elected` (the slot band is set). -/
def VState.is_elected (s : VState) : Bool :=
  s.slot_band.isSome

/-- The state `Validator::new` starts from: flags false, nothing elected, no
producers, no in-flight reactivation. -/
def VState.initial : VState :=
  ⟨false, false, none, false, false, none⟩

/-- The tail of `init_block_producer`: build the producer matching
`BlockType::of(head.block_number() + 1)`. -/
def mkProducer (P : Params) (c : ChainState) (s : VState) : VState :=
  match P.blockTypeOf (c.headNumber + 1) with
  | BlockTy.macroBlock => { s with macroProducer := true }
  | BlockTy.microBlock => { s with microProducer := true }

/-- The obsolete-head test of `init_block_producer`: a supplied head hash that
differs from the blockchain's current head hash. -/
def obsoleteHead (c : ChainState) : Option ℕ → Bool
  | some h => decide (c.headHash ≠ h)
  | none => false

/-- `Validator::init_block_producer` (validator.rs lines 317-387): clear both
producers; bail out unless elected and synced; bail out if the supplied head
hash is obsolete; otherwise build the producer for the next block height. -/
def init_block_producer (P : Params) (c : ChainState) (headHash : Option ℕ) (s : VState) :
    VState :=
  let s := { s with macroProducer := false, microProducer := false }
  if !(s.is_elected && s.is_synced) then s
  else if obsoleteHead c headHash then s
  else mkProducer P c s

/-- `matches!(staking_state, ValidatorStakingState::Inactive(..))`. -/
def stakingInactive : ValidatorStakingState → Bool
  | ValidatorStakingState.Inactive _ => true
  | _ => false

/-- The stale-reactivation check of `init_epoch` (validator.rs lines 262-281):
clear the in-flight state when still inactive, the validity window has passed
and the transaction is absent from the validity window. -/
def clearStaleInactivity (P : Params) (c : ChainState) :
    Option InactivityState → Option InactivityState
  | some vs =>
    if stakingInactive c.stakingState
        && decide (c.headNumber ≥ vs.inactive_tx_validity_window_start + P.blocksPerEpoch)
        && !c.txInValidityWindow
    then none
    else some vs
  | none => none

/-- `Validator::init_epoch` (validator.rs lines 253-315): clear the slot band;
return if not synced; clear a stale in-flight reactivation whose validity
window elapsed without the transaction being seen; recompute the slot band
from the current validators.  (Mempool and network notifications are external
effects and not part of the machine state.) -/
def init_epoch (P : Params) (c : ChainState) (s : VState) : VState :=
  let s := { s with slot_band := none }
  if !s.is_synced then s
  else { s with validator_state := clearStaleInactivity P c s.validator_state,
                slot_band := c.electedSlotBand }

/-- `Validator::pause` (validator.rs lines 423-439): clear the slot band and
both producers. -/
def pause (s : VState) : VState :=
  { s with slot_band := none, macroProducer := false, microProducer := false }

/-- `Validator::init` (validator.rs lines 247-251): `init_epoch`,
`init_mempool` (external), `init_block_producer`. -/
def initValidator (P : Params) (c : ChainState) (headHash : Option ℕ) (s : VState) : VState :=
  init_block_producer P c headHash (init_epoch P c s)

/-- `Validator::update_consensus_state` (validator.rs lines 443-463):
recompute the mirror of the consensus flags and act on the sync edge. -/
def update_consensus_state (P : Params) (c : ChainState) (headHash : Option ℕ)
    (s : VState) : VState :=
  let was := s.is_synced
  let s := { s with consensus_established := c.consensusEstablished,
                    validity_window_synced := c.canEnforceValidityWindow }
  if !was && s.is_synced then initValidator P c headHash s
  else if was && !s.is_synced then pause s
  else s

/-- `BlockchainEvent` (the variants `on_blockchain_event` dispatches on); the
rebranched variant carries the hash of the last block of the new chain. -/
inductive BlockchainEvent
  | Extended (hash : ℕ)
  | HistoryAdopted (hash : ℕ)
  | Finalized (hash : ℕ)
  | EpochFinalized (hash : ℕ)
  | Rebranched (newHeadHash : ℕ)
  | Stored
deriving DecidableEq

/-- `Validator::on_blockchain_extended` (validator.rs lines 498-519): apply
the block to the equivocation pool and mempool (external) and re-initialize
the block producer for the event's hash. -/
def on_blockchain_extended (P : Params) (c : ChainState) (hash : ℕ) (s : VState) : VState :=
  init_block_producer P c (some hash) s

/-- `Validator::on_blockchain_event` (validator.rs lines 465-488). -/
def on_blockchain_event (P : Params) (c : ChainState) (e : BlockchainEvent) (s : VState) :
    VState :=
  match e with
  | BlockchainEvent.Extended h => on_blockchain_extended P c h s
  | BlockchainEvent.HistoryAdopted _ => s
  | BlockchainEvent.Finalized h =>
    update_consensus_state P c (some h) (on_blockchain_extended P c h s)
  | BlockchainEvent.EpochFinalized h =>
    update_consensus_state P c (some h) (on_blockchain_extended P c h (init_epoch P c s))
  | BlockchainEvent.Rebranched h => on_blockchain_extended P c h s
  | BlockchainEvent.Stored => s

/-- Externally visible actions of a poll step. -/
inductive VAction
  | broadcastReactivate
deriving DecidableEq

/-- `jailed_from.map(|jailed_from| block_number >= block_after_jail(jailed_from)).unwrap_or(true)`. -/
def jailReleased (P : Params) (c : ChainState) : Option ℕ → Bool
  | some j => decide (c.headNumber ≥ P.blockAfterJail j)
  | none => true

/-- The per-status dispatch of the staking check (validator.rs lines 881-904). -/
def staking_check_dispatch (P : Params) (c : ChainState) (s : VState) :
    ValidatorStakingState → VState × List VAction
  | ValidatorStakingState.Active =>
    if s.validator_state.isSome then ({ s with validator_state := none }, []) else (s, [])
  | ValidatorStakingState.Inactive jailedFrom =>
    if s.validator_state = none && jailReleased P c jailedFrom && c.automaticReactivate then
      ({ s with validator_state := some ⟨c.freshTxHash, c.headNumber⟩ },
       [VAction.broadcastReactivate])
    else (s, [])
  | ValidatorStakingState.NoStake => (s, [])
  | ValidatorStakingState.Unknown => (s, [])

/-- The staking check of `Future::poll` (validator.rs lines 878-905), run
while synced: clear the inactivity state when `Active`; build and broadcast a
reactivation transaction when `Inactive`, not (or no longer) jailed,
`automatic_reactivate` is set and no state is in flight. -/
def staking_check (P : Params) (c : ChainState) (s : VState) : VState × List VAction :=
  if !s.is_synced then (s, [])
  else staking_check_dispatch P c s c.stakingState

/-- One item drained during a poll pass of the orchestrator reactor:
a consensus event, a blockchain event, or the staking check. -/
inductive VEvent
  | consensusEvent
  | blockchainEvent (e : BlockchainEvent)
  | stakingCheckTick
deriving DecidableEq

/-- One event-processing step of `Future::poll`. -/
def pollStep (P : Params) (c : ChainState) (e : VEvent) (s : VState) : VState × List VAction :=
  match e with
  | VEvent.consensusEvent => (update_consensus_state P c none s, [])
  | VEvent.blockchainEvent be => (on_blockchain_event P c be s, [])
  | VEvent.stakingCheckTick => staking_check P c s

/-- Run the orchestrator from its initial state over a sequence of steps, each
carrying the collaborator state observed during that step. -/
def runValidator (P : Params) (steps : List (ChainState × VEvent)) : VState :=
  steps.foldl (fun s step => (pollStep P step.1 step.2 s).1) VState.initial

/-! ## Producer gating lemmas -/

/-- A producer is present only while the stored flags say synced and elected,
and never both producers at once. -/
def ProducerInv (s : VState) : Prop :=
  ((s.macroProducer || s.microProducer) = true → s.is_synced = true ∧ s.is_elected = true) ∧
  ¬(s.macroProducer = true ∧ s.microProducer = true)

theorem producerInv_clear (u : VState) (h1 : u.macroProducer = false)
    (h2 : u.microProducer = false) : ProducerInv u := by
  constructor
  · intro h
    rw [h1, h2] at h
    simp at h
  · intro h
    rw [h1] at h
    simp at h

theorem producerInv_mkProducer (P : Params) (c : ChainState) (s : VState)
    (hsy : s.is_synced = true) (hel : s.is_elected = true)
    (hm : s.macroProducer = false) (hmi : s.microProducer = false) :
    ProducerInv (mkProducer P c s) := by
  rw [mkProducer]
  cases P.blockTypeOf (c.headNumber + 1) with
  | macroBlock =>
    refine ⟨fun _ => ⟨hsy, hel⟩, fun h => ?_⟩
    have h2 : s.microProducer = true := h.2
    rw [hmi] at h2
    exact Bool.false_ne_true h2
  | microBlock =>
    refine ⟨fun _ => ⟨hsy, hel⟩, fun h => ?_⟩
    have h2 : s.macroProducer = true := h.1
    rw [hm] at h2
    exact Bool.false_ne_true h2

theorem producerInv_init_block_producer (P : Params) (c : ChainState) (oh : Option ℕ)
    (s : VState) : ProducerInv (init_block_producer P c oh s) := by
  simp only [init_block_producer]
  split_ifs with h1 h2
  · exact producerInv_clear _ rfl rfl
  · exact producerInv_clear _ rfl rfl
  · have hg : (s.is_elected && s.is_synced) = true := by
      by_contra hb
      have hbf : (s.is_elected && s.is_synced) = false := Bool.eq_false_iff.mpr hb
      apply h1
      show (!(s.is_elected && s.is_synced)) = true
      rw [hbf]
      rfl
    rw [Bool.and_eq_true] at hg
    exact producerInv_mkProducer P c _ hg.2 hg.1 rfl rfl

theorem producerInv_update_consensus_state (P : Params) (c : ChainState) (oh : Option ℕ)
    {s : VState} (hs : ProducerInv s) :
    ProducerInv (update_consensus_state P c oh s) := by
  simp only [update_consensus_state]
  split_ifs with h1 h2
  · exact producerInv_init_block_producer P c oh _
  · exact producerInv_clear _ rfl rfl
  · constructor
    · intro h
      obtain ⟨hsy, hel⟩ := hs.1 h
      refine ⟨?_, hel⟩
      by_contra hno
      apply h2
      rw [hsy, Bool.eq_false_iff.mpr hno]
      rfl
    · exact hs.2

/-- The staking check never touches the producers, the flags or the slot
band: it only rewrites `validator_state`. -/
theorem staking_check_preserves (P : Params) (c : ChainState) (s : VState) :
    ∃ vs, (staking_check P c s).1 = { s with validator_state := vs } := by
  simp only [staking_check]
  split_ifs with h1
  · exact ⟨_, rfl⟩
  · cases c.stakingState with
    | Active =>
      simp only [staking_check_dispatch]
      split_ifs with h2
      · exact ⟨_, rfl⟩
      · exact ⟨_, rfl⟩
    | Inactive jf =>
      simp only [staking_check_dispatch]
      split_ifs with h2
      · exact ⟨_, rfl⟩
      · exact ⟨_, rfl⟩
    | NoStake => exact ⟨_, rfl⟩
    | Unknown => exact ⟨_, rfl⟩

theorem producerInv_staking_check (P : Params) (c : ChainState) {s : VState}
    (hs : ProducerInv s) : ProducerInv (staking_check P c s).1 := by
  obtain ⟨vs, hvs⟩ := staking_check_preserves P c s
  rw [hvs]
  exact hs

theorem producerInv_pollStep (P : Params) (c : ChainState) (e : VEvent) {s : VState}
    (hs : ProducerInv s) : ProducerInv (pollStep P c e s).1 := by
  cases e with
  | consensusEvent => exact producerInv_update_consensus_state P c none hs
  | blockchainEvent be =>
    cases be with
    | Extended h => exact producerInv_init_block_producer P c (some h) s
    | HistoryAdopted h => exact hs
    | Finalized h =>
      exact producerInv_update_consensus_state P c (some h)
        (producerInv_init_block_producer P c (some h) s)
    | EpochFinalized h =>
      exact producerInv_update_consensus_state P c (some h)
        (producerInv_init_block_producer P c (some h) _)
    | Rebranched h => exact producerInv_init_block_producer P c (some h) s
    | Stored => exact hs
  | stakingCheckTick => exact producerInv_staking_check P c hs

theorem producerInv_runValidator (P : Params) (steps : List (ChainState × VEvent)) :
    ProducerInv (runValidator P steps) := by
  rw [runValidator]
  have key : ∀ (s : VState), ProducerInv s →
      ProducerInv (steps.foldl (fun s step => (pollStep P step.1 step.2 s).1) s) := by
    induction steps with
    | nil => intro s hs; exact hs
    | cons st t ih =>
      intro s hs
      simp only [List.foldl_cons]
      exact ih _ (producerInv_pollStep P st.1 st.2 hs)
  exact key VState.initial (producerInv_clear VState.initial rfl rfl)

/-! ## Inactivity-state lemmas -/

theorem init_block_producer_validator_state (P : Params) (c : ChainState) (oh : Option ℕ)
    (s : VState) : (init_block_producer P c oh s).validator_state = s.validator_state := by
  simp only [init_block_producer]
  split_ifs with h1 h2
  · rfl
  · rfl
  · rw [mkProducer]
    cases P.blockTypeOf (c.headNumber + 1) with
    | macroBlock => rfl
    | microBlock => rfl

theorem pause_validator_state (s : VState) : (pause s).validator_state = s.validator_state :=
  rfl

/-- `init_epoch` either leaves the inactivity state alone or clears it, and it
clears it only when the staking status is inactive, the validity window has
elapsed and the transaction is not in the validity window. -/
theorem init_epoch_validator_state (P : Params) (c : ChainState) (s : VState) :
    (init_epoch P c s).validator_state = s.validator_state ∨
    ((init_epoch P c s).validator_state = none ∧
      ∀ vs, s.validator_state = some vs →
        vs.inactive_tx_validity_window_start + P.blocksPerEpoch ≤ c.headNumber ∧
          c.txInValidityWindow = false) := by
  simp only [init_epoch]
  split_ifs with h1
  · left; rfl
  · show clearStaleInactivity P c s.validator_state = s.validator_state ∨
      (clearStaleInactivity P c s.validator_state = none ∧ _)
    cases hvs : s.validator_state with
    | none =>
      left
      simp only [clearStaleInactivity]
    | some vs =>
      simp only [clearStaleInactivity]
      split_ifs with h2
      · right
        refine ⟨rfl, ?_⟩
        intro vs1 hvs1
        injection hvs1 with hvs1
        subst hvs1
        rw [Bool.and_eq_true, Bool.and_eq_true] at h2
        refine ⟨of_decide_eq_true h2.1.2, ?_⟩
        have h3 := h2.2
        rw [Bool.not_eq_true'] at h3
        exact h3
      · left; rfl

theorem update_consensus_state_validator_state (P : Params) (c : ChainState)
    (oh : Option ℕ) (s : VState) :
    (update_consensus_state P c oh s).validator_state = s.validator_state ∨
    ((update_consensus_state P c oh s).validator_state = none ∧
      ∀ vs, s.validator_state = some vs →
        vs.inactive_tx_validity_window_start + P.blocksPerEpoch ≤ c.headNumber ∧
          c.txInValidityWindow = false) := by
  simp only [update_consensus_state]
  split_ifs with h1 h2
  · rw [initValidator, init_block_producer_validator_state]
    rcases init_epoch_validator_state P c
        { s with consensus_established := c.consensusEstablished,
                 validity_window_synced := c.canEnforceValidityWindow } with h | ⟨h, hcond⟩
    · left; exact h
    · right; exact ⟨h, fun vs hv => hcond vs hv⟩
  · left; rfl
  · left; rfl

/-- Full behaviour of the staking check with respect to the inactivity state:
a reactivation is broadcast (and recorded) only from a clean, synced, inactive,
auto-reactivate state past any jail release; an in-flight state is removed
only when the staking status is `Active`. -/
theorem staking_check_spec (P : Params) (c : ChainState) (s : VState) :
    ((staking_check P c s).2.contains VAction.broadcastReactivate = true →
      s.validator_state = none ∧ s.is_synced = true ∧ c.automaticReactivate = true ∧
      (∃ jf, c.stakingState = ValidatorStakingState.Inactive jf ∧
        ∀ j, jf = some j → P.blockAfterJail j ≤ c.headNumber) ∧
      (staking_check P c s).1.validator_state = some ⟨c.freshTxHash, c.headNumber⟩) ∧
    (∀ vs, s.validator_state = some vs →
      (staking_check P c s).1.validator_state ≠ some vs →
      ((staking_check P c s).1.validator_state = none ∧
        c.stakingState = ValidatorStakingState.Active)) := by
  simp only [staking_check]
  by_cases h1 : (!s.is_synced) = true
  · rw [if_pos h1]
    exact ⟨fun h => by simp at h, fun vs hvs hne => absurd hvs hne⟩
  · rw [if_neg h1]
    have hsy : s.is_synced = true := by
      by_contra hno
      exact h1 (by rw [Bool.eq_false_iff.mpr hno]; rfl)
    cases hst : c.stakingState with
    | Active =>
      simp only [staking_check_dispatch]
      split_ifs with h2
      · constructor
        · intro h
          simp at h
        · intro vs hvs hne
          exact ⟨rfl, trivial⟩
      · constructor
        · intro h
          simp at h
        · intro vs hvs hne
          rw [hvs, Option.isSome_some] at h2
          exact absurd rfl h2
    | Inactive jf =>
      simp only [staking_check_dispatch]
      split_ifs with h2
      · rw [Bool.and_eq_true, Bool.and_eq_true] at h2
        obtain ⟨⟨hnone, hjail⟩, hauto⟩ := h2
        constructor
        · intro _
          refine ⟨of_decide_eq_true hnone, hsy, hauto, ⟨jf, rfl, ?_⟩, rfl⟩
          intro j hj
          subst hj
          simp only [jailReleased] at hjail
          exact of_decide_eq_true hjail
        · intro vs hvs hne
          rw [of_decide_eq_true hnone] at hvs
          exact Option.noConfusion hvs
      · constructor
        · intro h
          simp at h
        · intro vs hvs hne
          exact absurd hvs hne
    | NoStake =>
      constructor
      · intro h
        simp [staking_check_dispatch] at h
      · intro vs hvs hne
        exact absurd hvs hne
    | Unknown =>
      constructor
      · intro h
        simp [staking_check_dispatch] at h
      · intro vs hvs hne
        exact absurd hvs hne

/-! ## Claims about the orchestrator -/

/-- Claim C8: `init_block_producer` called with `Some(h)` where `h` differs
from the blockchain's current head hash leaves both `macro_producer` and
`micro_producer` as `None`: the method clears both producers before the
obsolete-hash check and returns without constructing a new one. -/
theorem init_block_producer_obsolete_hash (P : Params) (c : ChainState) (s : VState)
    (h : ℕ) (hne : c.headHash ≠ h) :
    (init_block_producer P c (some h) s).macroProducer = false ∧
    (init_block_producer P c (some h) s).microProducer = false := by
  simp only [init_block_producer]
  split_ifs with h1 h2
  · exact ⟨rfl, rfl⟩
  · exact ⟨rfl, rfl⟩
  · exfalso
    apply h2
    simp only [obsoleteHead]
    exact decide_eq_true hne

/-- Example policy parameters: every height is a micro block, epochs are 10
blocks long, jail releases 8 blocks after jailing. -/
def pExample : Params := ⟨fun _ => BlockTy.microBlock, 10, fun j => j + 8⟩

/-- Example collaborator state: head hash 0 at height 0, elected in slot 5,
consensus established, validity window enforceable, active stake. -/
def cExample : ChainState :=
  ⟨0, 0, some 5, true, true, ValidatorStakingState.Active, false, false, 0⟩

/-- Example orchestrator state: synced, elected, running a micro producer. -/
def sExample : VState := ⟨true, true, some 5, false, true, none⟩

/-- Witness for claim C8 at a concrete obsolete hash. -/
theorem init_block_producer_obsolete_hash_witness :
    cExample.headHash ≠ 1 ∧
    (init_block_producer pExample cExample (some 1) sExample).macroProducer = false ∧
    (init_block_producer pExample cExample (some 1) sExample).microProducer = false :=
  ⟨by decide, init_block_producer_obsolete_hash pExample cExample sExample 1 (by decide)⟩

/-- The run underlying the C4 counterexample: a consensus event establishes
sync while elected (a micro producer appears), then an `Extended` event whose
hash is stale (the chain head hash is 0, the event carries 1) is processed. -/
def staleExtendedRun : VState :=
  runValidator pExample
    [(cExample, VEvent.consensusEvent),
     (cExample, VEvent.blockchainEvent (BlockchainEvent.Extended 1))]

/-- Claim C4 counterexample: after processing an `Extended` event carrying an
obsolete hash, the validator is synced and elected yet holds no producer at
all, refuting the claimed equivalence "a producer exists ⇔ is_synced ∧
is_elected". -/
theorem producer_gating_counterexample :
    staleExtendedRun.is_synced = true ∧ staleExtendedRun.is_elected = true ∧
    staleExtendedRun.macroProducer = false ∧ staleExtendedRun.microProducer = false := by
  decide

/-- Claim C4 (amended): over every event sequence a producer exists only if
`is_synced ∧ is_elected`, and never both producers at once; and whenever a
synced and elected validator processes an `Extended` event whose hash matches
the current head, exactly the producer matching `BlockType::of(head + 1)` is
installed.  The unamended "if and only if" fails because an event carrying an
obsolete hash leaves a synced, elected validator with no producer. -/
theorem producer_gating_amended :
    (∀ (P : Params) (steps : List (ChainState × VEvent)),
      ((runValidator P steps).macroProducer || (runValidator P steps).microProducer) = true →
        (runValidator P steps).is_synced = true ∧ (runValidator P steps).is_elected = true) ∧
    (∀ (P : Params) (steps : List (ChainState × VEvent)),
      ¬((runValidator P steps).macroProducer = true ∧
        (runValidator P steps).microProducer = true)) ∧
    (∀ (P : Params) (c : ChainState) (h : ℕ) (s : VState),
      s.is_synced = true → s.is_elected = true → c.headHash = h →
      ((pollStep P c (VEvent.blockchainEvent (BlockchainEvent.Extended h)) s).1.macroProducer
          = true ↔ P.blockTypeOf (c.headNumber + 1) = BlockTy.macroBlock) ∧
      ((pollStep P c (VEvent.blockchainEvent (BlockchainEvent.Extended h)) s).1.microProducer
          = true ↔ P.blockTypeOf (c.headNumber + 1) = BlockTy.microBlock)) := by
  refine ⟨?_, ?_, ?_⟩
  · intro P steps h
    exact (producerInv_runValidator P steps).1 h
  · intro P steps
    exact (producerInv_runValidator P steps).2
  · intro P c h s hsy hel hh
    show ((init_block_producer P c (some h) s).macroProducer = true ↔ _) ∧
      ((init_block_producer P c (some h) s).microProducer = true ↔ _)
    simp only [init_block_producer]
    split_ifs with h1 h2
    · exfalso
      have hb : (!(s.is_elected && s.is_synced)) = true := h1
      rw [hel, hsy] at hb
      simp at hb
    · exfalso
      simp only [obsoleteHead] at h2
      exact (of_decide_eq_true h2) hh
    · rw [mkProducer]
      cases hbt : P.blockTypeOf (c.headNumber + 1) with
      | macroBlock =>
        exact ⟨⟨fun _ => rfl, fun _ => rfl⟩,
          ⟨fun hx => absurd hx Bool.false_ne_true, fun hx => BlockTy.noConfusion hx⟩⟩
      | microBlock =>
        exact ⟨⟨fun hx => absurd hx Bool.false_ne_true, fun hx => BlockTy.noConfusion hx⟩,
          ⟨fun _ => rfl, fun _ => rfl⟩⟩

/-- Witness for the amended claim C4 at a concrete synced, elected state and a
fresh head hash. -/
theorem producer_gating_amended_witness :
    sExample.is_synced = true ∧ sExample.is_elected = true ∧ cExample.headHash = 0 ∧
    ((pollStep pExample cExample (VEvent.blockchainEvent (BlockchainEvent.Extended 0))
        sExample).1.microProducer = true ↔
      pExample.blockTypeOf (cExample.headNumber + 1) = BlockTy.microBlock) :=
  ⟨by decide, by decide, by decide,
    (producer_gating_amended.2.2 pExample cExample 0 sExample (by decide) (by decide)
      (by decide)).2⟩

/-- Claim C6: at most one `InactivityState` is in flight.  In every poll step,
a reactivation transaction is broadcast (and an `InactivityState` recorded)
only when no state is held, the validator is synced, the staking status is
`Inactive`, any jail has expired and `automatic_reactivate` is set; and a held
state is cleared only when the staking status is `Active` (staking check) or
when the validity window has elapsed and the transaction is absent from it
(`init_epoch`, enabling a resend). -/
theorem inactivity_state_single_flight (P : Params) (c : ChainState) (e : VEvent)
    (s : VState) :
    ((pollStep P c e s).2.contains VAction.broadcastReactivate = true →
      s.validator_state = none ∧ s.is_synced = true ∧ c.automaticReactivate = true ∧
      (∃ jf, c.stakingState = ValidatorStakingState.Inactive jf ∧
        ∀ j, jf = some j → P.blockAfterJail j ≤ c.headNumber) ∧
      (pollStep P c e s).1.validator_state = some ⟨c.freshTxHash, c.headNumber⟩) ∧
    (∀ vs, s.validator_state = some vs →
      (pollStep P c e s).1.validator_state ≠ some vs →
      ((pollStep P c e s).1.validator_state = none ∧
        (c.stakingState = ValidatorStakingState.Active ∨
          (vs.inactive_tx_validity_window_start + P.blocksPerEpoch ≤ c.headNumber ∧
            c.txInValidityWindow = false)))) := by
  cases e with
  | stakingCheckTick =>
    obtain ⟨h1, h2⟩ := staking_check_spec P c s
    exact ⟨h1, fun vs hvs hne => ⟨(h2 vs hvs hne).1, Or.inl (h2 vs hvs hne).2⟩⟩
  | consensusEvent =>
    constructor
    · intro h
      simp [pollStep] at h
    · intro vs hvs hne
      rcases update_consensus_state_validator_state P c none s with h | ⟨h, hcond⟩
      · exact absurd (h.trans hvs) hne
      · exact ⟨h, Or.inr (hcond vs hvs)⟩
  | blockchainEvent be =>
    constructor
    · intro h
      simp [pollStep] at h
    · intro vs hvs hne
      cases be with
      | Extended h1 =>
        exact absurd ((init_block_producer_validator_state P c (some h1) s).trans hvs) hne
      | HistoryAdopted h1 => exact absurd hvs hne
      | Stored => exact absurd hvs hne
      | Rebranched h1 =>
        exact absurd ((init_block_producer_validator_state P c (some h1) s).trans hvs) hne
      | Finalized h1 =>
        rcases update_consensus_state_validator_state P c (some h1)
            (on_blockchain_extended P c h1 s) with h | ⟨h, hcond⟩
        · exact absurd (h.trans ((init_block_producer_validator_state P c (some h1) s).trans
            hvs)) hne
        · exact ⟨h, Or.inr (hcond vs
            ((init_block_producer_validator_state P c (some h1) s).trans hvs))⟩
      | EpochFinalized h1 =>
        have hibp := init_block_producer_validator_state P c (some h1) (init_epoch P c s)
        rcases init_epoch_validator_state P c s with he | ⟨he, hecond⟩
        · rcases update_consensus_state_validator_state P c (some h1)
              (on_blockchain_extended P c h1 (init_epoch P c s)) with hu | ⟨hu, hucond⟩
          · exact absurd (hu.trans (hibp.trans (he.trans hvs))) hne
          · exact ⟨hu, Or.inr (hucond vs (hibp.trans (he.trans hvs)))⟩
        · have hnone : (on_blockchain_extended P c h1 (init_epoch P c s)).validator_state
              = none := hibp.trans he
          rcases update_consensus_state_validator_state P c (some h1)
              (on_blockchain_extended P c h1 (init_epoch P c s)) with hu | ⟨hu, _⟩
          · exact ⟨hu.trans hnone, Or.inr (hecond vs hvs)⟩
          · exact ⟨hu, Or.inr (hecond vs hvs)⟩

/-- Collaborator state for the C6 witness: inactive since jailing at height
100 (released from 108 under `pExample`), head at 200, auto-reactivate on. -/
def cInactive : ChainState :=
  ⟨0, 200, some 5, true, true, ValidatorStakingState.Inactive (some 100), true, false, 7⟩

/-- Orchestrator state for the C6 witness: synced, no in-flight state. -/
def sNoFlight : VState := ⟨true, true, some 5, false, false, none⟩

/-- Witness for claim C6: the staking check at a concrete inactive, synced,
clean state broadcasts a reactivation and records the inactivity state. -/
theorem inactivity_state_single_flight_witness :
    (pollStep pExample cInactive VEvent.stakingCheckTick sNoFlight).2.contains
        VAction.broadcastReactivate = true ∧
    (pollStep pExample cInactive VEvent.stakingCheckTick sNoFlight).1.validator_state =
      some ⟨cInactive.freshTxHash, cInactive.headNumber⟩ :=
  ⟨by decide,
    ((inactivity_state_single_flight pExample cInactive VEvent.stakingCheckTick
      sNoFlight).1 (by decide)).2.2.2.2⟩

/-! ## The `Update` arm of `poll_macro` -/

/-- `Validator::MACRO_STATE_DB_NAME`. -/
def MACRO_STATE_DB_NAME : String := "ValidatorState"

/-- `Validator::MACRO_STATE_KEY`. -/
def MACRO_STATE_KEY : String := "validatorState"

/-- `MacroState`: the durable BFT round state.  Only the block number is
examined by the orchestrator; the rest of the round state is abstracted as a
payload. -/
structure MacroStateM where
  block_number : ℕ
  payload : ℕ
deriving DecidableEq

/-- `nimiq_serde::Serialize::serialize_to_vec`, abstracted to an injective
encoding. -/
def serializeMacroState (m : MacroStateM) : List ℕ := [m.block_number, m.payload]

/-- The validator's storage environment: table name and key to stored bytes. -/
def Storage : Type := String → String → Option (List ℕ)

/-- A committed `write_transaction.put` on one table/key. -/
def Storage.put (t : Storage) (table key : String) (v : List ℕ) : Storage :=
  fun tb k => if tb = table ∧ k = key then some v else t tb k

/-- The orchestrator state touched by the `Update` arm of `poll_macro`. -/
structure MacroUpdateCtx where
  headNumber : ℕ
  storage : Storage
  macro_state : Option MacroStateM

/-- The `MappedReturn::Update(update)` arm of `poll_macro` (validator.rs lines
641-663): discard the update unless its block number is the chain head plus
one; otherwise write the serialized state under the `validatorState` key of
the `ValidatorState` table (committing the write transaction) and publish the
update as the shared `macro_state`. -/
def pollMacroUpdate (ctx : MacroUpdateCtx) (update : MacroStateM) : MacroUpdateCtx :=
  if ctx.headNumber + 1 ≠ update.block_number then ctx
  else
    { ctx with
        storage := ctx.storage.put MACRO_STATE_DB_NAME MACRO_STATE_KEY
          (serializeMacroState update),
        macro_state := some update }

/-- Claim C5: the `Update` handler writes the serialized state under
`ValidatorState/validatorState` and updates the shared `macro_state` if and
only if `update.block_number` equals the chain head block number plus one; a
stale update is discarded without writing to storage or modifying
`macro_state`. -/
theorem pollMacroUpdate_guard (ctx : MacroUpdateCtx) (update : MacroStateM) :
    (update.block_number = ctx.headNumber + 1 →
      (pollMacroUpdate ctx update).storage MACRO_STATE_DB_NAME MACRO_STATE_KEY =
          some (serializeMacroState update) ∧
      (pollMacroUpdate ctx update).macro_state = some update ∧
      ∀ tb k, ¬(tb = MACRO_STATE_DB_NAME ∧ k = MACRO_STATE_KEY) →
        (pollMacroUpdate ctx update).storage tb k = ctx.storage tb k) ∧
    (update.block_number ≠ ctx.headNumber + 1 →
      pollMacroUpdate ctx update = ctx) := by
  constructor
  · intro h
    simp only [pollMacroUpdate]
    rw [if_neg (by rw [h]; exact fun hx => hx rfl)]
    refine ⟨?_, by trivial, ?_⟩
    · simp [Storage.put]
    · intro tb k hk
      simp [Storage.put, hk]
  · intro h
    simp only [pollMacroUpdate]
    rw [if_pos (fun hx => h hx.symm)]

/-- An empty storage environment. -/
def emptyStorage : Storage := fun _ _ => none

/-- Context for the C5 witness: chain head at block 2, empty storage. -/
def ctxExample : MacroUpdateCtx := ⟨2, emptyStorage, none⟩

/-- Update for the C5 witness: round state for block 3. -/
def updExample : MacroStateM := ⟨3, 42⟩

/-- Witness for claim C5: a fresh update for head + 1 is persisted and
published. -/
theorem pollMacroUpdate_guard_witness :
    updExample.block_number = ctxExample.headNumber + 1 ∧
    (pollMacroUpdate ctxExample updExample).storage MACRO_STATE_DB_NAME MACRO_STATE_KEY =
      some (serializeMacroState updExample) ∧
    (pollMacroUpdate ctxExample updExample).macro_state = some updExample :=
  ⟨rfl, ((pollMacroUpdate_guard ctxExample updExample).1 rfl).1,
    ((pollMacroUpdate_guard ctxExample updExample).1 rfl).2.1⟩

/-! ## Block publication -/

/-- `PushResult` (`nimiq_blockchain_interface`, an external collaborator). -/
inductive PushResult
  | Known
  | Extended
  | Rebranched
  | Forked
  | Ignored
deriving DecidableEq

/-- A micro block: header data and an optional body. -/
structure MicroBlockM where
  header : ℕ
  body : Option ℕ
deriving DecidableEq

/-- A macro block: header data and an optional body. -/
structure MacroBlockM where
  header : ℕ
  body : Option ℕ
deriving DecidableEq

/-- `nimiq_block::Block`. -/
inductive BlockM
  | micro (b : MicroBlockM)
  | macroB (b : MacroBlockM)
deriving DecidableEq

/-- The two gossip topics `publish_block` publishes to. -/
inductive Topic
  | BlockTopic
  | BlockHeaderTopic
deriving DecidableEq

/-- The body-stripping step of `publish_block` (validator.rs lines 713-718):
micro blocks lose their body before the header topic, macro blocks are always
sent with body. -/
def stripBodyForHeaderTopic : BlockM → BlockM
  | BlockM.micro b => BlockM.micro { b with body := none }
  | BlockM.macroB b => BlockM.macroB b

/-- `Validator::publish_block` (validator.rs lines 698-728): publish the full
block to `BlockTopic`, then the (possibly body-stripped) block to
`BlockHeaderTopic`, in that order. -/
def publish_block (b : BlockM) : List (Topic × BlockM) :=
  [(Topic.BlockTopic, b), (Topic.BlockHeaderTopic, stripBodyForHeaderTopic b)]

/-- The `MicroBlock` arm of `poll_micro` (validator.rs lines 668-680): publish
only when the push result is `Extended` or `Rebranched`. -/
def pollMicroEvent (b : MicroBlockM) (r : PushResult) : List (Topic × BlockM) :=
  if r = PushResult.Extended || r = PushResult.Rebranched then
    publish_block (BlockM.micro b)
  else []

/-- The publication part of the `Decision` arm of `poll_macro` (validator.rs
lines 598-637): the push result is `none` when the push failed; publish only
on `Extended` or `Rebranched`. -/
def pollMacroDecision (b : MacroBlockM) (r : Option PushResult) : List (Topic × BlockM) :=
  if r = some PushResult.Extended || r = some PushResult.Rebranched then
    publish_block (BlockM.macroB b)
  else []

/-- Claim C7: every publication of a locally produced block goes to
`BlockTopic` before `BlockHeaderTopic`; on the header topic a micro block is
sent with body `None` while a macro block is sent unchanged with its body;
and `poll_micro` and `poll_macro` publish exactly when the push result is
`Extended` or `Rebranched`. -/
theorem publish_block_ordering :
    (∀ (mb : MicroBlockM) (r : PushResult),
      (r = PushResult.Extended ∨ r = PushResult.Rebranched →
        pollMicroEvent mb r =
          [(Topic.BlockTopic, BlockM.micro mb),
           (Topic.BlockHeaderTopic, BlockM.micro ⟨mb.header, none⟩)]) ∧
      (r ≠ PushResult.Extended → r ≠ PushResult.Rebranched → pollMicroEvent mb r = [])) ∧
    (∀ (b : MacroBlockM) (r : Option PushResult),
      (r = some PushResult.Extended ∨ r = some PushResult.Rebranched →
        pollMacroDecision b r =
          [(Topic.BlockTopic, BlockM.macroB b),
           (Topic.BlockHeaderTopic, BlockM.macroB b)]) ∧
      (r ≠ some PushResult.Extended → r ≠ some PushResult.Rebranched →
        pollMacroDecision b r = [])) := by
  constructor
  · intro mb r
    constructor
    · intro hr
      rcases hr with h | h
      · subst h; rfl
      · subst h; rfl
    · intro h1 h2
      simp [pollMicroEvent, h1, h2]
  · intro b r
    constructor
    · intro hr
      rcases hr with h | h
      · subst h; rfl
      · subst h; rfl
    · intro h1 h2
      simp [pollMacroDecision, h1, h2]

/-- Witness for claim C7 at concrete blocks and push results. -/
theorem publish_block_ordering_witness :
    pollMicroEvent ⟨9, some 4⟩ PushResult.Extended =
      [(Topic.BlockTopic, BlockM.micro ⟨9, some 4⟩),
       (Topic.BlockHeaderTopic, BlockM.micro ⟨9, none⟩)] ∧
    pollMacroDecision ⟨8, some 3⟩ (some PushResult.Rebranched) =
      [(Topic.BlockTopic, BlockM.macroB ⟨8, some 3⟩),
       (Topic.BlockHeaderTopic, BlockM.macroB ⟨8, some 3⟩)] :=
  ⟨(publish_block_ordering.1 ⟨9, some 4⟩ PushResult.Extended).1 (Or.inl rfl),
   (publish_block_ordering.2 ⟨8, some 3⟩ (some PushResult.Rebranched)).1 (Or.inr rfl)⟩

/-! ## `FromDatabaseValue` for integers -/

/-- `std::io::ErrorKind` (the kinds this crate uses). -/
inductive IoErrorKind
  | InvalidData
  | InvalidInput
deriving DecidableEq

/-- `<uN>::from_ne_bytes` on the target's little-endian layout: byte 0 is
least significant. -/
def from_ne_bytes (bytes : List ℕ) : ℕ :=
  bytes.foldr (fun b acc => b + 256 * acc) 0

/-- The body of `impl_from_database_value_for_int!` (database-value lib.rs
lines 63-79) at byte size `size`: reject any input whose length is not
exactly `size` with an `InvalidData` I/O error, otherwise copy the bytes into
an array and reinterpret them natively. -/
def copy_from_database_int (size : ℕ) (bytes : List ℕ) : Except IoErrorKind ℕ :=
  if bytes.length ≠ size then Except.error IoErrorKind.InvalidData
  else Except.ok (from_ne_bytes bytes)

/-- `u32::copy_from_database` (`mem::size_of::<u32>() = 4`). -/
def u32_copy_from_database (bytes : List ℕ) : Except IoErrorKind ℕ :=
  copy_from_database_int 4 bytes

/-- `u64::copy_from_database` (`mem::size_of::<u64>() = 8`). -/
def u64_copy_from_database (bytes : List ℕ) : Except IoErrorKind ℕ :=
  copy_from_database_int 8 bytes

/-- Claim C9: for `u32` and `u64`, `copy_from_database` returns `Ok` exactly
when the input length equals the byte size of the type (4 and 8), in which
case the result is the native-endian reinterpretation of the bytes; for any
other length it fails with an `InvalidData` I/O error. -/
theorem copy_from_database_int_guard (bytes : List ℕ) :
    ((∃ v, u32_copy_from_database bytes = Except.ok v) ↔ bytes.length = 4) ∧
    (bytes.length = 4 → u32_copy_from_database bytes = Except.ok (from_ne_bytes bytes)) ∧
    (bytes.length ≠ 4 →
      u32_copy_from_database bytes = Except.error IoErrorKind.InvalidData) ∧
    ((∃ v, u64_copy_from_database bytes = Except.ok v) ↔ bytes.length = 8) ∧
    (bytes.length = 8 → u64_copy_from_database bytes = Except.ok (from_ne_bytes bytes)) ∧
    (bytes.length ≠ 8 →
      u64_copy_from_database bytes = Except.error IoErrorKind.InvalidData) := by
  have key : ∀ size : ℕ,
      ((∃ v, copy_from_database_int size bytes = Except.ok v) ↔ bytes.length = size) ∧
      (bytes.length = size →
        copy_from_database_int size bytes = Except.ok (from_ne_bytes bytes)) ∧
      (bytes.length ≠ size →
        copy_from_database_int size bytes = Except.error IoErrorKind.InvalidData) := by
    intro size
    by_cases h : bytes.length = size
    · refine ⟨⟨fun _ => h, fun _ => ?_⟩, fun _ => ?_, fun hn => absurd h hn⟩
      · exact ⟨from_ne_bytes bytes, by simp [copy_from_database_int, h]⟩
      · simp [copy_from_database_int, h]
    · refine ⟨⟨?_, fun hh => absurd hh h⟩, fun hh => absurd hh h, fun _ => ?_⟩
      · rintro ⟨v, hv⟩
        simp [copy_from_database_int, h] at hv
      · simp [copy_from_database_int, h]
  exact ⟨(key 4).1, (key 4).2.1, (key 4).2.2, (key 8).1, (key 8).2.1, (key 8).2.2⟩

/-- Witness for claim C9 at a concrete 4-byte input. -/
theorem copy_from_database_int_guard_witness :
    ([1, 2, 3, 4] : List ℕ).length = 4 ∧
    u32_copy_from_database [1, 2, 3, 4] = Except.ok (from_ne_bytes [1, 2, 3, 4]) :=
  ⟨rfl, (copy_from_database_int_guard [1, 2, 3, 4]).2.1 rfl⟩

/-! ## ES256 public keys -/

/-- `hex` encoding of one hex digit: `'0'..'9'` then `'a'..'f'` (character
codes). -/
def hexDigitChar (n : ℕ) : ℕ := if n < 10 then 48 + n else 87 + n

/-- `hex` digit decoding: digits, lowercase and uppercase letters. -/
def hexDigitVal (ch : ℕ) : Option ℕ :=
  if 48 ≤ ch ∧ ch ≤ 57 then some (ch - 48)
  else if 97 ≤ ch ∧ ch ≤ 102 then some (ch - 87)
  else if 65 ≤ ch ∧ ch ≤ 70 then some (ch - 55)
  else none

/-- `hex::encode`: two lowercase hex characters per byte. -/
def hexEncode : List ℕ → List ℕ
  | [] => []
  | b :: bs => hexDigitChar (b / 16) :: hexDigitChar (b % 16) :: hexEncode bs

/-- `hex::decode`: reject odd lengths and non-hex characters. -/
def hexDecode : List ℕ → Option (List ℕ)
  | [] => some []
  | [_] => none
  | hi :: lo :: rest =>
    match hexDigitVal hi, hexDigitVal lo, hexDecode rest with
    | some h, some l, some bs => some ((16 * h + l) :: bs)
    | _, _, _ => none

/-- `KeysError` (the variant `from_bytes` uses). -/
inductive KeysError
  | MalformedPublicKey
deriving DecidableEq

/-- `ParseError`: a hex decoding error or a wrapped key error. -/
inductive ParseError
  | InvalidHex
  | Keys (e : KeysError)
deriving DecidableEq

/-- `ES256PublicKey` wraps a `p256::EncodedPoint`, which stores the SEC1
encoding of the point; modelled as that byte list. -/
structure ES256PublicKey where
  point : List ℕ
deriving DecidableEq

/-- Modelled from the `p256`/SEC1 interface (the `p256` crate is an external
collaborator): `EncodedPoint::from_bytes` accepts the identity encoding
(tag 0, length 1), compressed points (tag 2 or 3, length 33) and uncompressed
or hybrid points (tag 4, 6 or 7, length 65), storing the bytes unchanged. -/
def encodedPointFromBytes (bytes : List ℕ) : Option (List ℕ) :=
  match bytes with
  | [] => none
  | tag :: rest =>
    if tag = 0 ∧ rest = [] then some bytes
    else if (tag = 2 ∨ tag = 3) ∧ rest.length = 32 then some bytes
    else if (tag = 4 ∨ tag = 6 ∨ tag = 7) ∧ rest.length = 64 then some bytes
    else none

/-- `ES256PublicKey::from_bytes` (es256_public_key.rs lines 34-38). -/
def ES256PublicKey.from_bytes (bytes : List ℕ) : Except KeysError ES256PublicKey :=
  match encodedPointFromBytes bytes with
  | some bs => Except.ok ⟨bs⟩
  | none => Except.error KeysError.MalformedPublicKey

/-- `ES256PublicKey::as_bytes` (lines 26-31): the stored encoded bytes, which
the source requires to be exactly 33 bytes. -/
def ES256PublicKey.as_bytes (k : ES256PublicKey) : List ℕ := k.point

/-- `ES256PublicKey::to_hex` (lines 41-43). -/
def ES256PublicKey.to_hex (k : ES256PublicKey) : List ℕ := hexEncode k.point

/-- `FromHex for ES256PublicKey` (lines 58-64): decode the hex string, then
parse the bytes. -/
def ES256PublicKey.from_hex (s : List ℕ) : Except ParseError ES256PublicKey :=
  match hexDecode s with
  | none => Except.error ParseError.InvalidHex
  | some bytes =>
    match ES256PublicKey.from_bytes bytes with
    | Except.ok k => Except.ok k
    | Except.error e => Except.error (ParseError.Keys e)

/-- A valid `ES256PublicKey`: a compressed SEC1 point encoding — 33 bytes,
leading tag 2 or 3 (`as_bytes` demands exactly 33 bytes), byte values below
256. -/
def ES256PublicKey.Valid (k : ES256PublicKey) : Prop :=
  k.point.length = 33 ∧ (k.point.head? = some 2 ∨ k.point.head? = some 3) ∧
  ∀ b ∈ k.point, b < 256

instance (k : ES256PublicKey) : Decidable k.Valid :=
  inferInstanceAs (Decidable (k.point.length = 33 ∧
    (k.point.head? = some 2 ∨ k.point.head? = some 3) ∧ ∀ b ∈ k.point, b < 256))

theorem hexDigit_roundtrip : ∀ n < 16, hexDigitVal (hexDigitChar n) = some n := by decide

theorem hexDecode_hexEncode (bytes : List ℕ) (hb : ∀ b ∈ bytes, b < 256) :
    hexDecode (hexEncode bytes) = some bytes := by
  induction bytes with
  | nil => rfl
  | cons b bs ih =>
    have hblt : b < 256 := hb b (List.mem_cons_self _ _)
    have h1 : hexDigitVal (hexDigitChar (b / 16)) = some (b / 16) :=
      hexDigit_roundtrip _ (by omega)
    have h2 : hexDigitVal (hexDigitChar (b % 16)) = some (b % 16) :=
      hexDigit_roundtrip _ (by omega)
    have ihh := ih (fun x hx => hb x (List.mem_cons_of_mem _ hx))
    simp only [hexEncode, hexDecode, h1, h2, ihh]
    rw [Nat.div_add_mod]

/-- Claim C10: for every valid (compressed, 33-byte) `ES256PublicKey`, both
`from_bytes ∘ as_bytes` and `from_hex ∘ to_hex` return `Ok` with an equal
key. -/
theorem es256_public_key_roundtrip (k : ES256PublicKey) (hk : k.Valid) :
    ES256PublicKey.from_bytes k.as_bytes = Except.ok k ∧
    ES256PublicKey.from_hex k.to_hex = Except.ok k := by
  obtain ⟨hlen, htag, hbytes⟩ := hk
  have hpoint : encodedPointFromBytes k.point = some k.point := by
    cases hp : k.point with
    | nil =>
      rw [hp] at hlen
      simp at hlen
    | cons tag rest =>
      rw [hp] at hlen htag
      simp only [List.length_cons] at hlen
      have hrest : rest.length = 32 := by omega
      have htag2 : tag = 2 ∨ tag = 3 := by
        simp only [List.head?] at htag
        rcases htag with h | h
        · injection h with h
          exact Or.inl h
        · injection h with h
          exact Or.inr h
      have hne0 : ¬(tag = 0 ∧ rest = []) := by
        rintro ⟨h0, -⟩
        rcases htag2 with h | h <;> omega
      simp only [encodedPointFromBytes]
      rw [if_neg hne0, if_pos ⟨htag2, hrest⟩]
  constructor
  · show ES256PublicKey.from_bytes k.point = Except.ok k
    simp only [ES256PublicKey.from_bytes, hpoint]
  · show ES256PublicKey.from_hex (hexEncode k.point) = Except.ok k
    have hdec : hexDecode (hexEncode k.point) = some k.point :=
      hexDecode_hexEncode _ hbytes
    simp only [ES256PublicKey.from_hex, hdec, ES256PublicKey.from_bytes, hpoint]

/-- A concrete valid compressed key: tag 2 followed by 32 zero bytes. -/
def kExample : ES256PublicKey := ⟨2 :: List.replicate 32 0⟩

/-- Witness for claim C10 at a concrete compressed key. -/
theorem es256_public_key_roundtrip_witness :
    kExample.Valid ∧
    ES256PublicKey.from_bytes kExample.as_bytes = Except.ok kExample ∧
    ES256PublicKey.from_hex kExample.to_hex = Except.ok kExample :=
  ⟨by decide, es256_public_key_roundtrip kExample (by decide)⟩

end Albatross
